import Mathlib

/-!
Shallow embedding of the pyboreas sensor-frame transformation pipeline
(`python/vis/vis_utils.py` and `pyboreas/vis/vis_utils.py`).

Numbers are modelled over exact fields: rationals for the pose, point
and interpolation pipeline, reals for the trigonometric rotation
algebra.  numpy / scipy library primitives called by the source are
modelled from their documented behaviour; each such spot is noted next
to the definition.  Python exceptions are modelled as `Option.none`.
-/

open Matrix

/-! ## Timestamp aligner (`python/vis/vis_utils.py`, lines 66-72) -/

/-- Embeds `get_dataset_offset_camera_ts`.  `6.3e9` is the float literal
6300000000 (exactly representable), and `raise Exception('Unknown
dataset!')` is modelled as `none`. -/
def get_dataset_offset_camera_ts (dataset : String) : Option ℚ :=
  if dataset = "scale" then some (63 * 10 ^ 8)
  else if dataset = "boreas" then some 0
  else none

/-! ## Geometry transformer: `transform_points`
(`python/vis/vis_utils.py`, lines 87-102) -/

/-- Raw lidar point record: the `x`, `y`, `z` fields read by
`transform_points` from each element of `raw_pcd`. -/
structure RawPoint where
  x : ℚ
  y : ℚ
  z : ℚ
deriving DecidableEq

/-- Default record used only to make list indexing total; every theorem
indexes in range. -/
def pt0 : RawPoint := ⟨0, 0, 0⟩

/-- Python `int()` truncation toward zero, on an exact rational. -/
def pyInt (q : ℚ) : ℤ := if 0 ≤ q then ⌊q⌋ else ⌈q⌉

/-- Contract of `np.random.choice(n, k, replace=False)` (numpy draws
`k` distinct indices below `n`); an outcome of the draw is modelled as
an explicit index list satisfying this predicate. -/
def validChoice (n k : ℕ) (c : List ℕ) : Prop :=
  c.length = k ∧ c.Nodup ∧ ∀ i ∈ c, i < n

instance (n k : ℕ) (c : List ℕ) : Decidable (validChoice n k c) := by
  unfold validChoice; infer_instance

/-- The homogeneous column `[p.x, p.y, p.z, 1]` that
`np.vstack((points.T, np.ones(...)))` builds for a retained point. -/
def homog (p : RawPoint) : Fin 4 → ℚ := ![p.x, p.y, p.z, 1]

/-- One output row of `np.matmul(T, np.vstack((points.T, ones))).T`:
the full 4-vector `T · [p;1]` laid out as a length-4 list. -/
def rowOf (T : Matrix (Fin 4) (Fin 4) ℚ) (p : RawPoint) : List ℚ :=
  List.ofFn fun i : Fin 4 => ∑ j : Fin 4, T i j * homog p j

/-- Embeds `transform_points` (lines 87-102).  The call
`np.random.choice(len(raw_pcd), int(keep_prob*len(raw_pcd)), replace=False)`
is modelled by the injected random source `rand`, queried at exactly
those two arguments; theorems assume `validChoice` for its outcome and
in-range indexing (numpy guarantees both).  The result of the source is
the k×4 array `np.matmul(T, np.vstack((points.T, ones))).T` — each row
is a full 4-vector (no row of the product is discarded). -/
def transform_points (T : Matrix (Fin 4) (Fin 4) ℚ) (raw_pcd : List RawPoint)
    (keep_prob : ℚ) (rand : ℕ → ℕ → List ℕ) : List (List ℚ) :=
  let k : ℕ := (pyInt (keep_prob * raw_pcd.length)).toNat
  let choice : List ℕ := rand raw_pcd.length k
  let kept : List RawPoint := choice.map fun i => raw_pcd.getD i pt0
  kept.map fun p => rowOf T p

/-! ## Generic list helper -/

theorem getD_map {α β : Type} (f : α → β) (l : List α) (n : ℕ) (d : α) :
    (l.map f).getD n (f d) = f (l.getD n d) := by
  simp only [List.getD_eq_getElem?_getD, List.getElem?_map]
  cases l[n]? <;> simp

theorem getElem?_transform (T : Matrix (Fin 4) (Fin 4) ℚ)
    (raw_pcd : List RawPoint) (keep_prob : ℚ) (rand : ℕ → ℕ → List ℕ)
    (j : ℕ) :
    (transform_points T raw_pcd keep_prob rand)[j]? =
      ((rand raw_pcd.length ((pyInt (keep_prob * raw_pcd.length)).toNat))[j]?).map
        (fun i => rowOf T (raw_pcd.getD i pt0)) := by
  simp only [transform_points, List.map_map, List.getElem?_map]
  rfl

theorem transform_length (T : Matrix (Fin 4) (Fin 4) ℚ)
    (raw_pcd : List RawPoint) (keep_prob : ℚ) (rand : ℕ → ℕ → List ℕ) :
    (transform_points T raw_pcd keep_prob rand).length =
      (rand raw_pcd.length ((pyInt (keep_prob * raw_pcd.length)).toNat)).length := by
  simp [transform_points]

theorem pyInt_one_mul (n : ℕ) : (pyInt ((1 : ℚ) * n)).toNat = n := by
  simp [pyInt]

/-- C9: `get_dataset_offset_camera_ts` returns 0 for "boreas", 6.3e9 for
"scale", and raises (none) for every other input string — no silent
default. -/
theorem C9_dataset_offset :
    get_dataset_offset_camera_ts "boreas" = some 0 ∧
    get_dataset_offset_camera_ts "scale" = some (63 * 10 ^ 8) ∧
    ∀ s : String, s ≠ "boreas" → s ≠ "scale" →
      get_dataset_offset_camera_ts s = none := by
  refine ⟨by norm_num [get_dataset_offset_camera_ts]; decide,
    by norm_num [get_dataset_offset_camera_ts], ?_⟩
  intro s h1 h2
  simp [get_dataset_offset_camera_ts, h1, h2]

/-- Witness for C9 at the concrete unknown dataset name "foo". -/
theorem C9_dataset_offset_witness :
    get_dataset_offset_camera_ts "foo" = none :=
  C9_dataset_offset.2.2 "foo" (by decide) (by decide)

/-- C1 counterexample: with `T` the identity, a single raw point
(1,2,3) and the (only legal) draw `[0]`, `transform_points` with
`keep_prob = 1` returns the 1×4 array `[[1,2,3,1]]`: the homogeneous
row is NOT dropped, so the result is not an N×3 array. -/
theorem C1_counterexample :
    validChoice 1 ((pyInt ((1 : ℚ) * ([(⟨1, 2, 3⟩ : RawPoint)].length))).toNat) [0] ∧
    transform_points 1 [⟨1, 2, 3⟩] 1 (fun _ _ => [0]) = [[1, 2, 3, 1]] ∧
    ¬ ∀ row ∈ transform_points 1 [⟨1, 2, 3⟩] 1 (fun _ _ => [0]), row.length = 3 := by
  have hval : validChoice 1
      ((pyInt ((1 : ℚ) * ([(⟨1, 2, 3⟩ : RawPoint)].length))).toNat) [0] := by
    refine ⟨?_, by decide, by decide⟩
    norm_num [pyInt]
  have hres : transform_points 1 [(⟨1, 2, 3⟩ : RawPoint)] 1 (fun _ _ => [0]) =
      [[1, 2, 3, 1]] := by
    simp [transform_points, rowOf, homog, Matrix.one_apply, Fin.sum_univ_four,
      List.ofFn_succ]
  refine ⟨hval, hres, ?_⟩
  intro hall
  have := hall [1, 2, 3, 1] (by rw [hres]; exact List.mem_singleton.2 rfl)
  simp at this

/-- C1 (amended): with `keep_prob = 1` and any legal outcome of the
random draw (a permutation of the indices), `transform_points` returns
exactly N rows; row `j` is the FULL 4-vector `T · [p;1]` (length 4, the
homogeneous row is kept, not dropped) of the point selected by the
drawn permutation at position `j`. -/
theorem C1_keep_all (T : Matrix (Fin 4) (Fin 4) ℚ) (raw : List RawPoint)
    (rand : ℕ → ℕ → List ℕ)
    (hv : validChoice raw.length raw.length (rand raw.length raw.length)) :
    (transform_points T raw 1 rand).length = raw.length ∧
    ∀ j, j < raw.length →
      ∃ i, (rand raw.length raw.length)[j]? = some i ∧ i < raw.length ∧
        (transform_points T raw 1 rand)[j]? = some (rowOf T (raw.getD i pt0)) ∧
        (rowOf T (raw.getD i pt0)).length = 4 := by
  have hk : ((pyInt ((1 : ℚ) * raw.length)).toNat) = raw.length := pyInt_one_mul _
  constructor
  · rw [transform_length, hk, hv.1]
  · intro j hj
    have hjlt : j < (rand raw.length raw.length).length := by
      rw [hv.1]; exact hj
    refine ⟨(rand raw.length raw.length)[j], List.getElem?_eq_getElem hjlt, ?_, ?_, ?_⟩
    · exact hv.2.2 _ (List.getElem_mem hjlt)
    · rw [getElem?_transform, hk, List.getElem?_eq_getElem hjlt, Option.map_some']
    · simp [rowOf]

/-- Witness for C1 (amended) at the identity transform, one point and
the identity draw. -/
theorem C1_keep_all_witness :
    (transform_points 1 [(⟨1, 2, 3⟩ : RawPoint)] 1 (fun _ _ => [0])).length = 1 :=
  (C1_keep_all 1 [⟨1, 2, 3⟩] (fun _ _ => [0]) (by decide)).1

/-- C8: with `keep_prob = 1/2` on 100 points, for every legal outcome of
the random draw, `transform_points` returns exactly 50 rows, the drawn
indices are distinct (no original point contributes twice), and each row
is the transform `T · [p;1]` of the original point it selects. -/
theorem C8_keep_half (T : Matrix (Fin 4) (Fin 4) ℚ) (raw : List RawPoint)
    (rand : ℕ → ℕ → List ℕ)
    (h100 : raw.length = 100) (hv : validChoice 100 50 (rand 100 50)) :
    (transform_points T raw (1 / 2) rand).length = 50 ∧
    (rand 100 50).Nodup ∧
    ∀ j, j < 50 →
      ∃ i, (rand 100 50)[j]? = some i ∧ i < 100 ∧
        (transform_points T raw (1 / 2) rand)[j]? = some (rowOf T (raw.getD i pt0)) := by
  have hk : ((pyInt ((1 / 2 : ℚ) * raw.length)).toNat) = 50 := by
    rw [h100]; norm_num [pyInt]; decide
  refine ⟨?_, hv.2.1, ?_⟩
  · rw [transform_length, hk, h100, hv.1]
  · intro j hj
    have hjlt : j < (rand 100 50).length := by rw [hv.1]; exact hj
    refine ⟨(rand 100 50)[j], List.getElem?_eq_getElem hjlt, ?_, ?_⟩
    · exact hv.2.2 _ (List.getElem_mem hjlt)
    · rw [getElem?_transform, hk, h100, List.getElem?_eq_getElem hjlt, Option.map_some']

/-- Witness for C8: 100 copies of the origin, drawing the first 50
indices. -/
theorem C8_keep_half_witness :
    (transform_points 1 (List.replicate 100 pt0) (1 / 2)
      (fun _ _ => List.range 50)).length = 50 :=
  (C8_keep_half 1 (List.replicate 100 pt0) (fun _ _ => List.range 50)
    (by simp) (by decide)).1

/-! ## Pose resolver (`python/vis/vis_utils.py`, lines 6-55) -/

/-- Alias for the 3×3 rational matrices of the pose resolver. -/
abbrev Mat3 := Matrix (Fin 3) (Fin 3) ℚ

/-- Alias for the 4×4 rational matrices of the pose resolver. -/
abbrev Mat4 := Matrix (Fin 4) (Fin 4) ℚ

/-- Embeds lines 23-26: `raw_heading = -np.roll(raw_heading, -1)`
followed by negating components 0, 1, 2.  Net effect on
`(a0,a1,a2,a3)`: `(a1, a2, a3, -a0)`. -/
def reorderQuat (a : Fin 4 → ℚ) : Fin 4 → ℚ := ![a 1, a 2, a 3, -(a 0)]

/-- Squared euclidean norm of a quaternion component vector. -/
def qnormSq (q : Fin 4 → ℚ) : ℚ := q 0 ^ 2 + q 1 ^ 2 + q 2 ^ 2 + q 3 ^ 2

/-- Models scipy `Rotation.from_quat(q).as_matrix()` with `q` in scipy's
(x, y, z, w) order: scipy normalizes the quaternion and converts; a
zero-norm quaternion raises `ValueError` (`none`).  For nonzero `q` the
unit-quaternion rotation matrix equals this formula with
`s = 2 / ‖q‖²` (the formula is invariant under scaling of `q`). -/
def quatToMat (q : Fin 4 → ℚ) : Option Mat3 :=
  if qnormSq q = 0 then none else
  some
    (let s : ℚ := 2 / qnormSq q
     !![1 - s * (q 1 ^ 2 + q 2 ^ 2), s * (q 0 * q 1 - q 2 * q 3), s * (q 0 * q 2 + q 1 * q 3);
        s * (q 0 * q 1 + q 2 * q 3), 1 - s * (q 0 ^ 2 + q 2 ^ 2), s * (q 1 * q 2 - q 0 * q 3);
        s * (q 0 * q 2 - q 1 * q 3), s * (q 1 * q 2 + q 0 * q 3), 1 - s * (q 0 ^ 2 + q 1 ^ 2)])

/-- Embeds `to_T` (lines 6-9): stack `C` and column `r`, append the row
`[0,0,0,1]`. -/
def to_T (C : Mat3) (r : Fin 3 → ℚ) : Mat4 :=
  fun i j =>
    if hi : (i : ℕ) < 3 then
      if hj : (j : ℕ) < 3 then C ⟨i, hi⟩ ⟨j, hj⟩ else r ⟨i, hi⟩
    else if (j : ℕ) < 3 then 0 else 1

/-- Lines 34-36: the hard-coded default `C_iv`. -/
def C_iv_default : Mat3 := !![0, -1, 0; 1, 0, 0; 0, 0, 1]

/-- Lines 37-39: `C_vi = C_iv.T` in the default branch. -/
def defaultC_vi : Mat3 := C_iv_default.transpose

/-- Lines 38-40: default `T_vi`, with `r_vi = [0, 0, 0.45]` and
`r_iv = -C_vi · r_vi` (the float literal 0.45 is modelled as 9/20). -/
def defaultT_vi : Mat4 :=
  to_T defaultC_vi
    (fun i => -(∑ j : Fin 3, defaultC_vi i j * (![0, 0, 9 / 20] : Fin 3 → ℚ) j))

/-- The top-left 3×3 block `M[0:3, 0:3]` (line 43). -/
def block3 (M : Mat4) : Mat3 := fun i j => M i.castSucc j.castSucc

/-- Computable matrix inverse over ℚ (equal to Mathlib's `M⁻¹`, see
`inv4_eq`); models `np.linalg.inv` on a nonsingular input. -/
def inv4 (M : Mat4) : Mat4 := (M.det)⁻¹ • M.adjugate

theorem inv4_eq (M : Mat4) : inv4 M = M⁻¹ := by
  rw [Matrix.inv_def, inv4, Ring.inverse_eq_inv']

/-- Lines 32-43: select the IMU→velodyne extrinsic.  `np.linalg.inv`
raises `LinAlgError` on a singular input (`none`). -/
def extrinsicBranch (tiv : Option Mat4) : Option (Mat4 × Mat3) :=
  match tiv with
  | none => some (defaultT_vi, defaultC_vi)
  | some M => if M.det = 0 then none else some (inv4 M, block3 (inv4 M))

/-- Lines 49-51: `raw_heading_yaw` — components 0 ("pitch") and 1
("roll") of the already-reordered quaternion set to 0. -/
def yawOnly (h : Fin 4 → ℚ) : Fin 4 → ℚ := ![0, 0, h 2, h 3]

/-- Embeds `velodyne_frame_from_imu` (lines 11-55): convert the
reordered heading, build `T_io = [[C_io, -C_io·r_io], 1]`, compose with
the extrinsic `T_vi` for `T_vo`, and separately convert the
pitch/roll-zeroed quaternion and premultiply by `C_vi` for `C_vo_yaw`.
Any scipy/numpy exception on the way is `none`. -/
def velodyne_frame_from_imu (raw_heading : Fin 4 → ℚ) (r_i_o : Fin 3 → ℚ)
    (tiv : Option Mat4) : Option (Mat4 × Mat3) :=
  (quatToMat (reorderQuat raw_heading)).bind fun C_i_o =>
  (extrinsicBranch tiv).bind fun tvc =>
  (quatToMat (yawOnly (reorderQuat raw_heading))).map fun C_i_o_yaw =>
  (tvc.1 * to_T C_i_o (fun i => -(∑ j : Fin 3, C_i_o i j * r_i_o j)),
   tvc.2 * C_i_o_yaw)

/-- The claimed preprocessing of C3, from the spec's words: cyclic
rotation of the components plus sign flip on the vector part,
`(a0,a1,a2,a3) ↦ (-a1, -a2, -a3, a0)`. -/
def cyclicVecFlip (a : Fin 4 → ℚ) : Fin 4 → ℚ := ![-(a 1), -(a 2), -(a 3), a 0]

/-- The extrinsic rotation `C_vi` as a function of the optional
supplied `T_iv`. -/
def C_vi_of (tiv : Option Mat4) : Mat3 :=
  match tiv with
  | none => defaultC_vi
  | some M => block3 (inv4 M)

/-- Zero the pitch and roll components of the ORIGINAL (unreordered)
heading quaternion, written from the spec's words (§4.2 step 4); in the
on-disk layout these are components 1 and 2. -/
def zeroPitchRollOrig (a : Fin 4 → ℚ) : Fin 4 → ℚ := ![a 0, 0, 0, a 3]

/-- The C2 reference value, from the spec's words: zero pitch/roll of
the original quaternion, convert it (reorder + quaternion-to-matrix),
and premultiply by the extrinsic rotation only. -/
def specYawRotation (a : Fin 4 → ℚ) (tiv : Option Mat4) : Option Mat3 :=
  (quatToMat (reorderQuat (zeroPitchRollOrig a))).map (fun M => C_vi_of tiv * M)

theorem quatToMat_negAll (q : Fin 4 → ℚ) :
    quatToMat (fun i => -(q i)) = quatToMat q := by
  have hn : qnormSq (fun i => -(q i)) = qnormSq q := by simp [qnormSq]
  unfold quatToMat
  rw [hn]
  split
  · rfl
  · congr 1
    ext i j
    fin_cases i <;> fin_cases j <;>
      simp [Matrix.vecHead, Matrix.vecTail]

/-- C3 counterexample: at the concrete raw quaternion (1,0,0,0) the
code's preprocessing gives (0,0,0,-1), while a cyclic component
rotation plus a sign flip on the vector part gives (0,0,0,1): the two
differ (in the scalar component). -/
theorem C3_counterexample :
    reorderQuat ![1, 0, 0, 0] 3 = -1 ∧ cyclicVecFlip ![1, 0, 0, 0] 3 = 1 ∧
    reorderQuat ![1, 0, 0, 0] ≠ cyclicVecFlip ![1, 0, 0, 0] := by
  refine ⟨by norm_num [reorderQuat], by norm_num [cyclicVecFlip], ?_⟩
  intro h
  have h3 := congrFun h 3
  norm_num [reorderQuat, cyclicVecFlip] at h3

/-- C3 (amended): the preprocessing is a cyclic rotation of the
components combined with a sign flip on the SCALAR part,
`(a0,a1,a2,a3) ↦ (a1,a2,a3,-a0)`.  It is the componentwise negation of
the claimed vector-part flip, so both yield the same rotation matrix. -/
theorem C3_preprocess (a : Fin 4 → ℚ) :
    reorderQuat a = (fun i => -(cyclicVecFlip a i)) ∧
    quatToMat (reorderQuat a) = quatToMat (cyclicVecFlip a) := by
  have h1 : reorderQuat a = (fun i => -(cyclicVecFlip a i)) := by
    funext i
    fin_cases i <;> simp [reorderQuat, cyclicVecFlip]
  exact ⟨h1, by rw [h1, quatToMat_negAll]⟩

theorem yawOnly_reorder (a : Fin 4 → ℚ) :
    yawOnly (reorderQuat a) = reorderQuat (zeroPitchRollOrig a) := by
  funext i
  fin_cases i <;> simp [yawOnly, reorderQuat, zeroPitchRollOrig]

theorem extrinsicBranch_snd (tiv : Option Mat4) (p : Mat4 × Mat3)
    (h : extrinsicBranch tiv = some p) : p.2 = C_vi_of tiv := by
  cases tiv with
  | none =>
    simp only [extrinsicBranch, Option.some.injEq] at h
    rw [← h, C_vi_of]
  | some M =>
    simp only [extrinsicBranch] at h
    by_cases hd : M.det = 0
    · rw [if_pos hd] at h; exact absurd h (by simp)
    · rw [if_neg hd, Option.some.injEq] at h
      rw [← h, C_vi_of]

/-- C2: whenever `velodyne_frame_from_imu` succeeds, the returned
yaw-only rotation `C_vo_yaw` equals the extrinsic rotation `C_vi` (only
a rotation, no translation enters) times the rotation obtained from the
ORIGINAL (unreordered) heading quaternion with its pitch and roll
components zeroed, run through the usual conversion (reorder followed
by quaternion-to-matrix). -/
theorem C2_yaw_from_original (a : Fin 4 → ℚ) (r : Fin 3 → ℚ)
    (tiv : Option Mat4) (T : Mat4) (C : Mat3)
    (h : velodyne_frame_from_imu a r tiv = some (T, C)) :
    specYawRotation a tiv = some C := by
  unfold velodyne_frame_from_imu at h
  simp only [Option.bind_eq_some, Option.map_eq_some'] at h
  obtain ⟨C_i_o, e1, tvc, e2, Cyaw, e3, heq⟩ := h
  have hC : C = tvc.2 * Cyaw := (Prod.mk.injEq _ _ _ _ ▸ heq).2.symm
  rw [specYawRotation, ← yawOnly_reorder, e3, Option.map_some', hC,
    extrinsicBranch_snd tiv tvc e2]

theorem reorderQuat_unitW : reorderQuat ![1, 0, 0, 0] = ![0, 0, 0, -1] := by
  funext i
  fin_cases i <;> simp [reorderQuat]

theorem quatToMat_negUnitW : quatToMat ![0, 0, 0, -1] = some 1 := by
  unfold quatToMat
  rw [if_neg (by norm_num [qnormSq])]
  congr 1
  ext i j
  fin_cases i <;> fin_cases j <;>
    norm_num [qnormSq, Matrix.one_apply, Matrix.vecHead, Matrix.vecTail, Fin.ext_iff]

theorem yawOnly_negUnitW : yawOnly ![0, 0, 0, -1] = ![0, 0, 0, -1] := by
  funext i
  fin_cases i <;> simp [yawOnly]

theorem zeroRvec : (fun i => -(∑ j : Fin 3, (1 : Mat3) i j * (![0, 0, 0] : Fin 3 → ℚ) j)) =
    (fun _ => (0 : ℚ)) := by
  funext i
  simp [Fin.sum_univ_three]

theorem to_T_one_zero : to_T 1 (fun _ => (0 : ℚ)) = (1 : Mat4) := by
  ext i j
  unfold to_T
  by_cases hi : (i : ℕ) < 3 <;> by_cases hj : (j : ℕ) < 3
  · rw [dif_pos hi, dif_pos hj]
    simp [Matrix.one_apply, Fin.ext_iff]
  · rw [dif_pos hi, dif_neg hj,
      Matrix.one_apply_ne (fun hc => by rw [congrArg Fin.val hc] at hi; omega)]
  · rw [dif_neg hi, if_pos hj,
      Matrix.one_apply_ne (fun hc => by rw [congrArg Fin.val hc] at hi; omega)]
  · rw [dif_neg hi, if_neg hj]
    have hij : i = j := Fin.ext (by omega)
    rw [hij, Matrix.one_apply_eq]

/-- Witness for C2 at the concrete heading (1,0,0,0), zero translation
and the default extrinsic. -/
theorem C2_yaw_witness :
    velodyne_frame_from_imu ![1, 0, 0, 0] ![0, 0, 0] none =
      some (defaultT_vi, defaultC_vi) ∧
    specYawRotation ![1, 0, 0, 0] none = some defaultC_vi := by
  have h : velodyne_frame_from_imu ![1, 0, 0, 0] ![0, 0, 0] none =
      some (defaultT_vi, defaultC_vi) := by
    unfold velodyne_frame_from_imu
    rw [reorderQuat_unitW, yawOnly_negUnitW, quatToMat_negUnitW]
    simp only [extrinsicBranch, Option.some_bind, Option.map_some']
    rw [zeroRvec, to_T_one_zero, mul_one, mul_one]
  exact ⟨h, C2_yaw_from_original ![1, 0, 0, 0] ![0, 0, 0] none _ _ h⟩

theorem quatToMat_none_iff (q : Fin 4 → ℚ) :
    quatToMat q = none ↔ qnormSq q = 0 := by
  unfold quatToMat
  split <;> simp_all

theorem extrinsicBranch_none_iff (tiv : Option Mat4) :
    extrinsicBranch tiv = none ↔ ∃ M, tiv = some M ∧ M.det = 0 := by
  cases tiv with
  | none => simp [extrinsicBranch]
  | some M =>
    simp only [extrinsicBranch]
    constructor
    · intro h
      by_cases hd : M.det = 0
      · exact ⟨M, rfl, hd⟩
      · rw [if_neg hd] at h
        exact absurd h (by simp)
    · rintro ⟨N, hN, hd⟩
      obtain rfl : M = N := by injection hN
      rw [if_pos hd]

/-- C4 (amended): `velodyne_frame_from_imu` performs NO orthonormality
validation.  It fails exactly when the reordered or the
pitch/roll-zeroed quaternion has zero norm (scipy `ValueError`) or the
supplied extrinsic is singular (`LinAlgError`); orthonormality of the
derived rotation plays no role (a successful output can carry a
non-orthonormal rotation). -/
theorem C4_no_orthonormality_check (a : Fin 4 → ℚ) (r : Fin 3 → ℚ)
    (tiv : Option Mat4) :
    velodyne_frame_from_imu a r tiv = none ↔
      qnormSq (reorderQuat a) = 0 ∨ qnormSq (yawOnly (reorderQuat a)) = 0 ∨
        (∃ M, tiv = some M ∧ M.det = 0) := by
  rw [← quatToMat_none_iff, ← quatToMat_none_iff, ← extrinsicBranch_none_iff]
  unfold velodyne_frame_from_imu
  cases h1 : quatToMat (reorderQuat a) <;> cases h2 : extrinsicBranch tiv <;>
    cases h3 : quatToMat (yawOnly (reorderQuat a)) <;> simp [h1, h2, h3]

/-- C4 counterexample: with heading (1,0,0,0), zero translation and the
(nonsingular, but not rigid) supplied extrinsic `diag(2,1,1,1)`,
`velodyne_frame_from_imu` SUCCEEDS and returns the rotation
`diag(1/2,1,1)` for `C_vo_yaw`, which is not orthonormal — no
validation error is surfaced. -/
theorem C4_counterexample :
    velodyne_frame_from_imu ![1, 0, 0, 0] ![0, 0, 0]
        (some (Matrix.diagonal ![2, 1, 1, 1])) =
      some (Matrix.diagonal ![1 / 2, 1, 1, 1], Matrix.diagonal ![1 / 2, 1, 1]) ∧
    Matrix.diagonal ![(1 : ℚ) / 2, 1, 1] *
        (Matrix.diagonal ![(1 : ℚ) / 2, 1, 1]).transpose ≠ 1 := by
  constructor
  · have hdet : (Matrix.diagonal ![(2 : ℚ), 1, 1, 1]).det = 2 := by
      simp [Matrix.det_diagonal, Fin.prod_univ_four]
    have hprod : Matrix.diagonal ![(2 : ℚ), 1, 1, 1] *
        Matrix.diagonal ![(1 : ℚ) / 2, 1, 1, 1] = 1 := by
      rw [Matrix.diagonal_mul_diagonal]
      have hv : (fun i => (![(2 : ℚ), 1, 1, 1] : Fin 4 → ℚ) i *
          (![(1 : ℚ) / 2, 1, 1, 1] : Fin 4 → ℚ) i) = fun _ => (1 : ℚ) := by
        funext i
        fin_cases i <;> norm_num
      rw [hv, Matrix.diagonal_one]
    have hinv : inv4 (Matrix.diagonal ![(2 : ℚ), 1, 1, 1]) =
        Matrix.diagonal ![(1 : ℚ) / 2, 1, 1, 1] := by
      rw [inv4_eq]
      exact Matrix.inv_eq_right_inv hprod
    have hblock : block3 (Matrix.diagonal ![(1 : ℚ) / 2, 1, 1, 1]) =
        Matrix.diagonal ![(1 : ℚ) / 2, 1, 1] := by
      ext i j
      fin_cases i <;> fin_cases j <;>
        simp [block3, Matrix.diagonal_apply, Fin.ext_iff,
          show Fin.castSucc (2 : Fin 3) = (2 : Fin 4) from rfl]
    have heb : extrinsicBranch (some (Matrix.diagonal ![(2 : ℚ), 1, 1, 1])) =
        some (Matrix.diagonal ![(1 : ℚ) / 2, 1, 1, 1],
          Matrix.diagonal ![(1 : ℚ) / 2, 1, 1]) := by
      simp only [extrinsicBranch]
      rw [if_neg (by rw [hdet]; norm_num), hinv, hblock]
    unfold velodyne_frame_from_imu
    rw [reorderQuat_unitW, yawOnly_negUnitW, quatToMat_negUnitW, heb]
    simp only [Option.some_bind, Option.map_some']
    rw [zeroRvec, to_T_one_zero, mul_one, mul_one]
  · intro h
    have h00 := congrFun (congrFun h 0) 0
    rw [Matrix.diagonal_transpose, Matrix.diagonal_mul_diagonal] at h00
    simp [Matrix.diagonal_apply, Matrix.one_apply] at h00
    norm_num at h00

/-! ## Resampler: `bilinear_interp`
(`pyboreas/vis/vis_utils.py`, lines 108-145), for a single scalar
query point. -/

/-- numpy basic indexing with one (possibly negative) integer index:
an index in `[-n, n)` is accepted, a negative one counting from the
end; anything else raises `IndexError` (`none`). -/
def npGet {α : Type} (v : List α) (i : ℤ) : Option α :=
  if 0 ≤ i ∧ i < (v.length : ℤ) then v[i.toNat]?
  else if -(v.length : ℤ) ≤ i ∧ i < 0 then v[(i + v.length).toNat]?
  else none

/-- Two-dimensional numpy indexing `img[y, x]` on a rectangular nested
list. -/
def npGet2 (img : List (List ℚ)) (y x : ℤ) : Option ℚ :=
  (npGet img y).bind fun row => npGet row x

/-- Embeds `bilinear_interp` (lines 108-145) at a single scalar query
`(x, y)`: floor/ceil corner indices, gather the four corner samples
(`IndexError` on any out-of-bounds gather is `none`), epsilon-stabilized
(`EPS = 1e-14`) weighted blends, then the mask overwrites — `f_y1` by
`q11` and `f_y2` by `q22` where `x1 == x2`, and `f` by `f_y1` where
`y1 == y2` — written extensionally as conditionals. -/
def bilinear_interp (img : List (List ℚ)) (x y : ℚ) : Option ℚ :=
  let x1 : ℤ := ⌊x⌋
  let x2 : ℤ := ⌈x⌉
  let y1 : ℤ := ⌊y⌋
  let y2 : ℤ := ⌈y⌉
  (npGet2 img y1 x1).bind fun q11 =>
  (npGet2 img y2 x1).bind fun q12 =>
  (npGet2 img y1 x2).bind fun q21 =>
  (npGet2 img y2 x2).map fun q22 =>
    let EPS : ℚ := 1 / 10 ^ 14
    let x_21 : ℚ := (x2 : ℚ) - (x1 : ℚ) + EPS
    let x_2 : ℚ := ((x2 : ℚ) - x) / x_21
    let x_1 : ℚ := (x - (x1 : ℚ)) / x_21
    let f_y1 : ℚ := if x1 = x2 then q11 else q11 * x_2 + q21 * x_1
    let f_y2 : ℚ := if x1 = x2 then q22 else q12 * x_2 + q22 * x_1
    let y_21 : ℚ := (y2 : ℚ) - (y1 : ℚ) + EPS
    let y_2 : ℚ := ((y2 : ℚ) - y) / y_21
    let y_1 : ℚ := (y - (y1 : ℚ)) / y_21
    if y1 = y2 then f_y1 else y_2 * f_y1 + y_1 * f_y2

theorem npGet_nonneg {α : Type} (v : List α) (i : ℤ) (h0 : 0 ≤ i)
    (hlt : i < (v.length : ℤ)) : npGet v i = v[i.toNat]? := by
  unfold npGet
  rw [if_pos ⟨h0, hlt⟩]

theorem npGet_neg {α : Type} (v : List α) (i : ℤ) (hneg : i < 0)
    (hge : -(v.length : ℤ) ≤ i) : npGet v i = v[(i + v.length).toNat]? := by
  unfold npGet
  rw [if_neg (by omega), if_pos ⟨hge, hneg⟩]

theorem getD_of_lt (v : List ℚ) (n : ℕ) (h : n < v.length) :
    v[n]? = some (v.getD n 0) := by
  rw [List.getElem?_eq_getElem h]
  simp [List.getD_eq_getElem?_getD, List.getElem?_eq_getElem h]

theorem npGet2_int (img : List (List ℚ)) (c : ℕ) (xi yi : ℤ)
    (hrect : ∀ row ∈ img, row.length = c)
    (hy0 : 0 ≤ yi) (hy : yi < (img.length : ℤ))
    (hx0 : 0 ≤ xi) (hx : xi < (c : ℤ)) :
    npGet2 img yi xi = some ((img.getD yi.toNat []).getD xi.toNat 0) := by
  have hyb : yi.toNat < img.length := by omega
  have hrow : img[yi.toNat] = img.getD yi.toNat [] := by
    simp [List.getD_eq_getElem?_getD, List.getElem?_eq_getElem hyb]
  have hlen : (img.getD yi.toNat []).length = c := by
    rw [← hrow]
    exact hrect _ (List.getElem_mem hyb)
  have hxb : xi.toNat < (img.getD yi.toNat []).length := by
    rw [hlen]; omega
  unfold npGet2
  rw [npGet_nonneg img yi hy0 hy, List.getElem?_eq_getElem hyb, Option.some_bind,
    hrow, npGet_nonneg _ xi hx0 (by rw [hlen]; exact hx), getD_of_lt _ _ hxb]

/-- C7: at an exact in-bounds integer grid vertex `(x, y)`,
`bilinear_interp` returns exactly the raw corner sample `img[y][x]` —
the degenerate-axis corrections overwrite the epsilon-stabilized blends
on both axes. -/
theorem C7_exact_vertex (img : List (List ℚ)) (c : ℕ) (xi yi : ℤ)
    (hrect : ∀ row ∈ img, row.length = c)
    (hy0 : 0 ≤ yi) (hy : yi < (img.length : ℤ))
    (hx0 : 0 ≤ xi) (hx : xi < (c : ℤ)) :
    bilinear_interp img (xi : ℚ) (yi : ℚ) =
      some ((img.getD yi.toNat []).getD xi.toNat 0) := by
  have hq : npGet2 img yi xi = some ((img.getD yi.toNat []).getD xi.toNat 0) :=
    npGet2_int img c xi yi hrect hy0 hy hx0 hx
  unfold bilinear_interp
  simp only [Int.floor_intCast, Int.ceil_intCast, hq, Option.some_bind,
    Option.map_some', if_pos rfl]
  simp

/-- Witness for C7 on the 1×1 grid [[5]] at the vertex (0, 0). -/
theorem C7_exact_vertex_witness :
    bilinear_interp [[(5 : ℚ)]] 0 0 = some 5 := by
  have h := C7_exact_vertex [[(5 : ℚ)]] 1 0 0 (by simp) (by norm_num)
    (by norm_num) (by norm_num) (by norm_num)
  simpa using h

/-- C10: for a query with −1 < x < 0 on an in-bounds integer row,
`bilinear_interp` succeeds with no out-of-bounds error: `floor(x) = −1`
wraps to the LAST column, so the result blends `img[y][c−1]` (weight
`−x/(1+EPS)`) with `img[y][0]` (weight `(x+1)/(1+EPS)`), the
degenerate-y correction reducing the output to that x-interpolation. -/
theorem C10_negative_x_wraps (img : List (List ℚ)) (c : ℕ) (y : ℤ) (x : ℚ)
    (hrect : ∀ row ∈ img, row.length = c) (hc : 1 ≤ c)
    (hy0 : 0 ≤ y) (hy : y < (img.length : ℤ))
    (hx1 : -1 < x) (hx2 : x < 0) :
    bilinear_interp img x (y : ℚ) =
      some ((img.getD y.toNat []).getD (c - 1) 0 * (-x / (1 + 1 / 10 ^ 14)) +
            (img.getD y.toNat []).getD 0 0 * ((x + 1) / (1 + 1 / 10 ^ 14))) := by
  have hyb : y.toNat < img.length := by omega
  have hrow : img[y.toNat] = img.getD y.toNat [] := by
    simp [List.getD_eq_getElem?_getD, List.getElem?_eq_getElem hyb]
  have hlen : (img.getD y.toNat []).length = c := by
    rw [← hrow]
    exact hrect _ (List.getElem_mem hyb)
  have hfl : ⌊x⌋ = -1 := by
    rw [Int.floor_eq_iff]
    constructor
    · push_cast; linarith
    · push_cast; linarith
  have hce : ⌈x⌉ = 0 := by
    rw [Int.ceil_eq_iff]
    constructor
    · push_cast; linarith
    · push_cast; linarith
  have hrowget : npGet img y = some (img.getD y.toNat []) := by
    rw [npGet_nonneg img y hy0 hy, List.getElem?_eq_getElem hyb, hrow]
  have hlast : npGet (img.getD y.toNat []) (-1) =
      some ((img.getD y.toNat []).getD (c - 1) 0) := by
    rw [npGet_neg _ _ (by norm_num) (by rw [hlen]; omega)]
    have : ((-1 : ℤ) + (img.getD y.toNat []).length).toNat = c - 1 := by
      rw [hlen]; omega
    rw [this, getD_of_lt _ _ (by rw [hlen]; omega)]
  have hfirst : npGet (img.getD y.toNat []) 0 =
      some ((img.getD y.toNat []).getD 0 0) := by
    rw [npGet_nonneg _ 0 (by norm_num) (by rw [hlen]; omega)]
    exact getD_of_lt _ _ (by rw [hlen]; omega)
  have hq11 : npGet2 img y (-1) = some ((img.getD y.toNat []).getD (c - 1) 0) := by
    rw [npGet2, hrowget, Option.some_bind, hlast]
  have hq21 : npGet2 img y 0 = some ((img.getD y.toNat []).getD 0 0) := by
    rw [npGet2, hrowget, Option.some_bind, hfirst]
  unfold bilinear_interp
  simp only [hfl, hce, Int.floor_intCast, Int.ceil_intCast, hq11, hq21,
    Option.some_bind, Option.map_some']
  simp only [if_true, if_neg (show ¬(-1 : ℤ) = 0 by norm_num)]
  push_cast
  ring_nf

/-- Witness for C10 on the 1×2 grid [[10, 20]] at x = −1/2, y = 0:
the result blends the last and first columns. -/
theorem C10_negative_x_wraps_witness :
    bilinear_interp [[(10 : ℚ), 20]] (-(1 / 2)) 0 =
      some (20 * ((1 / 2) / (1 + 1 / 10 ^ 14)) +
            10 * ((1 / 2) / (1 + 1 / 10 ^ 14))) := by
  have h := C10_negative_x_wraps [[(10 : ℚ), 20]] 2 0 (-(1 / 2))
    (by simp) (by norm_num) (by norm_num) (by norm_num) (by norm_num) (by norm_num)
  norm_num at h
  convert h using 2
  norm_num

/-! ## Rotation algebra (`python/vis/vis_utils.py`, lines 152-183),
over the reals. -/

noncomputable section

/-- numpy `arctan2(y, x)`: the angle of the point `(x, y)`, in
(−π, π] with `arctan2(0, 0) = 0`; modelled as the complex argument. -/
def atan2 (y x : ℝ) : ℝ := Complex.arg (x + y * Complex.I)

/-- Embeds `rot_x` (lines 152-155). -/
def rot_x (alpha : ℝ) : Matrix (Fin 3) (Fin 3) ℝ :=
  !![1, 0, 0;
     0, Real.cos alpha, -Real.sin alpha;
     0, Real.sin alpha, Real.cos alpha]

/-- Embeds `rot_y` (lines 158-161). -/
def rot_y (beta : ℝ) : Matrix (Fin 3) (Fin 3) ℝ :=
  !![Real.cos beta, 0, Real.sin beta;
     0, 1, 0;
     -Real.sin beta, 0, Real.cos beta]

/-- Embeds `rot_z` (lines 164-167). -/
def rot_z (gamma : ℝ) : Matrix (Fin 3) (Fin 3) ℝ :=
  !![Real.cos gamma, -Real.sin gamma, 0;
     Real.sin gamma, Real.cos gamma, 0;
     0, 0, 1]

/-- Embeds `rot_to_yaw_pitch_roll` (lines 170-183), axis indices
i = 2, j = 1, k = 0; returns the triple (yaw, pitch, roll). -/
def rot_to_yaw_pitch_roll (C : Matrix (Fin 3) (Fin 3) ℝ) (eps : ℝ) :
    ℝ × ℝ × ℝ :=
  let c_y := Real.sqrt (C 2 2 ^ 2 + C 1 2 ^ 2)
  if c_y > eps then
    (atan2 (C 0 1) (C 0 0), atan2 (-(C 0 2)) c_y, atan2 (C 1 2) (C 2 2))
  else
    (atan2 (-(C 1 0)) (C 1 1), atan2 (-(C 0 2)) c_y, 0)

end

theorem atan2_mul_cos_sin (c θ : ℝ) (hc : 0 < c)
    (hθ : θ ∈ Set.Ioc (-Real.pi) Real.pi) :
    atan2 (c * Real.sin θ) (c * Real.cos θ) = θ := by
  unfold atan2
  have h : ((c * Real.cos θ : ℝ) : ℂ) + (c * Real.sin θ : ℝ) * Complex.I =
      (c : ℂ) * (Real.cos θ + Real.sin θ * Complex.I) := by
    push_cast
    ring
  rw [h, Complex.arg_real_mul _ hc, Complex.ofReal_cos, Complex.ofReal_sin]
  exact Complex.arg_cos_add_sin_mul_I hθ

theorem atan2_cos_sin (θ : ℝ) (hθ : θ ∈ Set.Ioc (-Real.pi) Real.pi) :
    atan2 (Real.sin θ) (Real.cos θ) = θ := by
  have h := atan2_mul_cos_sin 1 θ one_pos hθ
  simpa using h

theorem atan2_zero_one : atan2 0 1 = 0 := by
  unfold atan2
  norm_num [Complex.arg_one]

theorem atan2_neg_one_zero : atan2 (-1) 0 = -(Real.pi / 2) := by
  unfold atan2
  rw [show ((0 : ℝ) : ℂ) + ((-1 : ℝ) : ℂ) * Complex.I = -Complex.I by push_cast; ring]
  exact Complex.arg_neg_I

theorem atan2_one_zero : atan2 1 0 = Real.pi / 2 := by
  unfold atan2
  rw [show ((0 : ℝ) : ℂ) + ((1 : ℝ) : ℂ) * Complex.I = Complex.I by push_cast; ring]
  exact Complex.arg_I

theorem rot_zyx_transpose (y p r : ℝ) :
    (rot_z y * rot_y p * rot_x r).transpose =
      !![Real.cos y * Real.cos p, Real.sin y * Real.cos p, -Real.sin p;
         Real.cos y * Real.sin p * Real.sin r - Real.sin y * Real.cos r,
           Real.sin y * Real.sin p * Real.sin r + Real.cos y * Real.cos r,
           Real.cos p * Real.sin r;
         Real.cos y * Real.sin p * Real.cos r + Real.sin y * Real.sin r,
           Real.sin y * Real.sin p * Real.cos r - Real.cos y * Real.sin r,
           Real.cos p * Real.cos r] := by
  ext i j
  fin_cases i <;> fin_cases j <;>
    simp [rot_x, rot_y, rot_z, Matrix.mul_apply, Matrix.transpose_apply,
      Fin.sum_univ_three, Matrix.vecHead, Matrix.vecTail] <;> ring


theorem rot_to_ypr_lit (a b c d e f g h i eps : ℝ) :
    rot_to_yaw_pitch_roll !![a, b, c; d, e, f; g, h, i] eps =
      if Real.sqrt (i ^ 2 + f ^ 2) > eps then
        (atan2 b a, atan2 (-c) (Real.sqrt (i ^ 2 + f ^ 2)), atan2 f i)
      else
        (atan2 (-d) e, atan2 (-c) (Real.sqrt (i ^ 2 + f ^ 2)), 0) := by
  unfold rot_to_yaw_pitch_roll
  simp

theorem rot_zyx_prod (y p r : ℝ) :
    rot_z y * rot_y p * rot_x r =
      !![Real.cos y * Real.cos p,
           Real.cos y * Real.sin p * Real.sin r - Real.sin y * Real.cos r,
           Real.cos y * Real.sin p * Real.cos r + Real.sin y * Real.sin r;
         Real.sin y * Real.cos p,
           Real.sin y * Real.sin p * Real.sin r + Real.cos y * Real.cos r,
           Real.sin y * Real.sin p * Real.cos r - Real.cos y * Real.sin r;
         -Real.sin p, Real.cos p * Real.sin r, Real.cos p * Real.cos r] := by
  ext i j
  fin_cases i <;> fin_cases j <;>
    simp [rot_x, rot_y, rot_z, Matrix.mul_apply,
      Fin.sum_univ_three, Matrix.vecHead, Matrix.vecTail] <;> ring

/-- C5 (amended): the decomposer inverts the TRANSPOSED composition:
for yaw and roll in (−π, π) and pitch in (−π/2, π/2) with cos(pitch)
above the gimbal-lock threshold, `rot_to_yaw_pitch_roll` applied to
`(rot_z yaw · rot_y pitch · rot_x roll)ᵀ` recovers exactly
(yaw, pitch, roll). -/
theorem C5_round_trip_transpose (y p r : ℝ)
    (hy1 : -Real.pi < y) (hy2 : y < Real.pi)
    (hp1 : -(Real.pi / 2) < p) (hp2 : p < Real.pi / 2)
    (hr1 : -Real.pi < r) (hr2 : r < Real.pi)
    (hthr : Real.cos p > 1 / 10 ^ 15) :
    rot_to_yaw_pitch_roll ((rot_z y * rot_y p * rot_x r).transpose)
      (1 / 10 ^ 15) = (y, p, r) := by
  have hcp : 0 < Real.cos p := lt_trans (by norm_num) hthr
  rw [rot_zyx_transpose, rot_to_ypr_lit]
  have hsqrt : Real.sqrt ((Real.cos p * Real.cos r) ^ 2 +
      (Real.cos p * Real.sin r) ^ 2) = Real.cos p := by
    rw [show (Real.cos p * Real.cos r) ^ 2 + (Real.cos p * Real.sin r) ^ 2 =
        Real.cos p ^ 2 * (Real.sin r ^ 2 + Real.cos r ^ 2) from by ring,
      Real.sin_sq_add_cos_sq, mul_one, Real.sqrt_sq hcp.le]
  rw [hsqrt, if_pos hthr, Prod.mk.injEq, Prod.mk.injEq]
  refine ⟨?_, ?_, ?_⟩
  · rw [mul_comm (Real.sin y) (Real.cos p), mul_comm (Real.cos y) (Real.cos p)]
    exact atan2_mul_cos_sin _ _ hcp ⟨hy1, hy2.le⟩
  · rw [neg_neg]
    exact atan2_cos_sin p ⟨by linarith [Real.pi_pos], by linarith [Real.pi_pos]⟩
  · exact atan2_mul_cos_sin _ _ hcp ⟨hr1, hr2.le⟩

/-- Witness for C5 (amended) at yaw = pitch = roll = 0. -/
theorem C5_round_trip_witness :
    rot_to_yaw_pitch_roll ((rot_z 0 * rot_y 0 * rot_x 0).transpose)
      (1 / 10 ^ 15) = (0, 0, 0) :=
  C5_round_trip_transpose 0 0 0 (by linarith [Real.pi_pos]) Real.pi_pos
    (by linarith [Real.pi_pos]) (by linarith [Real.pi_pos])
    (by linarith [Real.pi_pos]) Real.pi_pos
    (by rw [Real.cos_zero]; norm_num)

/-- C5 counterexample: the untransposed round trip fails.  At
yaw = π/2, pitch = roll = 0 (all inside the claimed domain, away from
gimbal lock), `rot_to_yaw_pitch_roll (rot_z (π/2) · rot_y 0 · rot_x 0)`
returns (−π/2, 0, 0), not (π/2, 0, 0). -/
theorem C5_counterexample :
    (-Real.pi < Real.pi / 2 ∧ Real.pi / 2 < Real.pi ∧
      Real.cos 0 > 1 / 10 ^ 15) ∧
    rot_to_yaw_pitch_roll (rot_z (Real.pi / 2) * rot_y 0 * rot_x 0)
      (1 / 10 ^ 15) = (-(Real.pi / 2), 0, 0) ∧
    (-(Real.pi / 2) : ℝ) ≠ Real.pi / 2 := by
  have hM : rot_z (Real.pi / 2) * rot_y 0 * rot_x 0 =
      !![0, -1, 0; 1, 0, 0; (0 : ℝ), 0, 1] := by
    rw [rot_zyx_prod, Real.cos_pi_div_two, Real.sin_pi_div_two,
      Real.cos_zero, Real.sin_zero]
    norm_num
  refine ⟨⟨by linarith [Real.pi_pos], by linarith [Real.pi_pos],
    by rw [Real.cos_zero]; norm_num⟩, ?_, ?_⟩
  · rw [hM, rot_to_ypr_lit,
      show ((1 : ℝ) ^ 2 + 0 ^ 2) = 1 by norm_num, Real.sqrt_one,
      if_pos (by norm_num)]
    rw [Prod.mk.injEq, Prod.mk.injEq]
    exact ⟨atan2_neg_one_zero, by rw [neg_zero]; exact atan2_zero_one,
      atan2_zero_one⟩
  · intro h
    have : Real.pi = 0 := by linarith
    exact absurd this Real.pi_ne_zero

/-- C6 (amended): in the decomposer's (transposed) convention, a
rotation built with pitch = π/2 exactly gives `c_y = 0`, so the
degenerate branch is taken for any positive tolerance and the returned
roll is exactly 0. -/
theorem C6_gimbal_transpose (y r : ℝ) :
    Real.sqrt (((rot_z y * rot_y (Real.pi / 2) * rot_x r).transpose 2 2) ^ 2 +
        ((rot_z y * rot_y (Real.pi / 2) * rot_x r).transpose 1 2) ^ 2) = 0 ∧
    ¬ (Real.sqrt (((rot_z y * rot_y (Real.pi / 2) * rot_x r).transpose 2 2) ^ 2 +
        ((rot_z y * rot_y (Real.pi / 2) * rot_x r).transpose 1 2) ^ 2) >
      1 / 10 ^ 15) ∧
    (rot_to_yaw_pitch_roll ((rot_z y * rot_y (Real.pi / 2) * rot_x r).transpose)
      (1 / 10 ^ 15)).2.2 = 0 := by
  have h22 : (rot_z y * rot_y (Real.pi / 2) * rot_x r).transpose 2 2 = 0 := by
    rw [rot_zyx_transpose]
    simp [Real.cos_pi_div_two, Matrix.vecHead, Matrix.vecTail]
  have h12 : (rot_z y * rot_y (Real.pi / 2) * rot_x r).transpose 1 2 = 0 := by
    rw [rot_zyx_transpose]
    simp [Real.cos_pi_div_two, Matrix.vecHead, Matrix.vecTail]
  have hs : Real.sqrt (((rot_z y * rot_y (Real.pi / 2) * rot_x r).transpose 2 2) ^ 2 +
      ((rot_z y * rot_y (Real.pi / 2) * rot_x r).transpose 1 2) ^ 2) = 0 := by
    rw [h22, h12]
    norm_num
  refine ⟨hs, by rw [hs]; norm_num, ?_⟩
  rw [rot_zyx_transpose, rot_to_ypr_lit, Real.cos_pi_div_two]
  rw [if_neg (by norm_num)]

/-- C6 counterexample: with yaw = π/2, pitch = π/2, roll = 0 the matrix
`rot_z (π/2) · rot_y (π/2) · rot_x 0` (built with pitch = π/2 exactly,
as the claim constructs it) does NOT take the degenerate branch —
`c_y = 1 > ε` — and the returned roll is π/2, not 0. -/
theorem C6_counterexample :
    Real.sqrt (((rot_z (Real.pi / 2) * rot_y (Real.pi / 2) * rot_x 0) 2 2) ^ 2 +
        ((rot_z (Real.pi / 2) * rot_y (Real.pi / 2) * rot_x 0) 1 2) ^ 2) >
      1 / 10 ^ 15 ∧
    (rot_to_yaw_pitch_roll (rot_z (Real.pi / 2) * rot_y (Real.pi / 2) * rot_x 0)
      (1 / 10 ^ 15)).2.2 = Real.pi / 2 ∧
    (Real.pi / 2 : ℝ) ≠ 0 := by
  have hM : rot_z (Real.pi / 2) * rot_y (Real.pi / 2) * rot_x 0 =
      !![0, -1, 0; 0, 0, 1; (-1 : ℝ), 0, 0] := by
    rw [rot_zyx_prod, Real.cos_pi_div_two, Real.sin_pi_div_two,
      Real.cos_zero, Real.sin_zero]
    norm_num
  refine ⟨?_, ?_, ?_⟩
  · rw [hM]
    norm_num
  · rw [hM, rot_to_ypr_lit,
      show ((0 : ℝ) ^ 2 + 1 ^ 2) = 1 by norm_num, Real.sqrt_one,
      if_pos (by norm_num)]
    exact atan2_one_zero
  · intro h
    have : Real.pi = 0 := by linarith
    exact absurd this Real.pi_ne_zero
